import Mathlib

/-!
Shallow embedding of the `position-monitor` repository (Go), covering the
multi-tenant subscription / snapshot-diffing / fan-out engine in `main.go`
and the legacy single-tenant variant (`src/unnamed/part_000`).

Modelling conventions:
* Go `map[K]V` values are represented as association lists `List (K × V)`;
  the list order is the (unspecified, per-call) iteration order that a Go
  `range` loop observes.  Two lists that are permutations of each other with
  no duplicate keys represent the same Go map.
* Numeric fields that arrive as decimal text (`Szi`, `EntryPx`, ...) are
  represented by their parse result: `Option ℚ`, where `none` stands for a
  string that `strconv.ParseFloat` rejects.  The Go code ignores the parse
  error, leaving the zero value, which is `parseFloatOrZero`.
* `float64` arithmetic is modelled by exact rational arithmetic.
* `time.Now()` timestamps are passed in as an explicit `timeStamp` argument.
-/

namespace PositionMonitor

/-- Go map indexing `m[k]` (comma-ok form): first entry with the given key. -/
def lookupKey {α β : Type} [DecidableEq α] : List (α × β) → α → Option β
  | [], _ => none
  | (k, v) :: rest, a => if k = a then some v else lookupKey rest a

/-- Go map assignment `m[k] = v`: replace the entry if the key is present,
otherwise add it. -/
def upsert {α β : Type} [DecidableEq α] : List (α × β) → α → β → List (α × β)
  | [], a, b => [(a, b)]
  | (k, v) :: rest, a, b =>
      if k = a then (a, b) :: rest else (k, v) :: upsert rest a b

/-- Go `delete(m, k)`: drop the entry with the given key. -/
def removeKey {α β : Type} [DecidableEq α] : List (α × β) → α → List (α × β)
  | [], _ => []
  | (k, v) :: rest, a => if k = a then rest else (k, v) :: removeKey rest a

@[simp] theorem lookupKey_nil {α β : Type} [DecidableEq α] (a : α) :
    lookupKey ([] : List (α × β)) a = none := rfl

@[simp] theorem lookupKey_cons {α β : Type} [DecidableEq α] (k a : α) (v : β)
    (rest : List (α × β)) :
    lookupKey ((k, v) :: rest) a = if k = a then some v else lookupKey rest a := rfl

theorem lookupKey_upsert_self {α β : Type} [DecidableEq α]
    (l : List (α × β)) (a : α) (b : β) : lookupKey (upsert l a b) a = some b := by
  induction l with
  | nil => simp [upsert]
  | cons kv rest ih =>
      obtain ⟨k, v⟩ := kv
      by_cases h : k = a <;> simp [upsert, h, ih]

theorem lookupKey_upsert_ne {α β : Type} [DecidableEq α]
    (l : List (α × β)) (a a' : α) (b : β) (h : a ≠ a') :
    lookupKey (upsert l a b) a' = lookupKey l a' := by
  induction l with
  | nil => simp [upsert, lookupKey, h]
  | cons kv rest ih =>
      obtain ⟨k, v⟩ := kv
      by_cases hk : k = a
      · subst hk
        simp [upsert, lookupKey, h]
      · simp [upsert, hk, lookupKey, ih]

theorem mem_upsert_of_ne {α β : Type} [DecidableEq α]
    {l : List (α × β)} {kv : α × β} (hm : kv ∈ l) (a : α) (b : β) (h : kv.1 ≠ a) :
    kv ∈ upsert l a b := by
  induction l with
  | nil => cases hm
  | cons hd rest ih =>
      obtain ⟨k, v⟩ := hd
      rcases List.mem_cons.mp hm with hm' | hm'
      · subst hm'
        by_cases hk : k = a
        · exact absurd hk h
        · simp [upsert, hk]
      · by_cases hk : k = a
        · subst hk
          simp only [upsert, if_pos rfl]
          exact List.mem_cons_of_mem _ hm'
        · simp only [upsert, if_neg hk]
          exact List.mem_cons_of_mem _ (ih hm')

theorem length_upsert_of_not_mem {α β : Type} [DecidableEq α]
    {l : List (α × β)} {a : α} (h : lookupKey l a = none) (b : β) :
    (upsert l a b).length = l.length + 1 := by
  induction l with
  | nil => simp [upsert]
  | cons hd rest ih =>
      obtain ⟨k, v⟩ := hd
      by_cases hk : k = a
      · simp [lookupKey, hk] at h
      · simp only [lookupKey, if_neg hk] at h
        simp [upsert, hk, ih h]

theorem mem_of_mem_removeKey {α β : Type} [DecidableEq α]
    {l : List (α × β)} {a : α} {kv : α × β} (h : kv ∈ removeKey l a) : kv ∈ l := by
  induction l with
  | nil => simp [removeKey] at h
  | cons hd rest ih =>
      obtain ⟨k, v⟩ := hd
      by_cases hk : k = a
      · simp only [removeKey, if_pos hk] at h
        exact List.mem_cons_of_mem _ h
      · simp only [removeKey, if_neg hk] at h
        rcases List.mem_cons.mp h with h' | h'
        · subst h'
          exact List.mem_cons_self _ _
        · exact List.mem_cons_of_mem _ (ih h')

theorem lookupKey_eq_none_of_not_mem_keys {α β : Type} [DecidableEq α]
    {l : List (α × β)} {a : α} (h : a ∉ l.map Prod.fst) : lookupKey l a = none := by
  induction l with
  | nil => rfl
  | cons hd rest ih =>
      obtain ⟨k, v⟩ := hd
      simp only [List.map_cons, List.mem_cons, not_or] at h
      have hk : k ≠ a := fun hk => h.1 hk.symm
      simp [lookupKey, hk, ih h.2]

theorem lookupKey_removeKey_self {α β : Type} [DecidableEq α]
    {l : List (α × β)} (hnd : (l.map Prod.fst).Nodup) (a : α) :
    lookupKey (removeKey l a) a = none := by
  induction l with
  | nil => simp [removeKey]
  | cons hd rest ih =>
      obtain ⟨k, v⟩ := hd
      simp only [List.map_cons, List.nodup_cons] at hnd
      by_cases hk : k = a
      · subst hk
        simp only [removeKey, if_pos rfl]
        exact lookupKey_eq_none_of_not_mem_keys hnd.1
      · simp only [removeKey, if_neg hk, lookupKey, if_neg hk]
        exact ih hnd.2

theorem lookupKey_removeKey_ne {α β : Type} [DecidableEq α]
    (l : List (α × β)) (a a' : α) (h : a ≠ a') :
    lookupKey (removeKey l a) a' = lookupKey l a' := by
  induction l with
  | nil => simp [removeKey]
  | cons hd rest ih =>
      obtain ⟨k, v⟩ := hd
      by_cases hk : k = a
      · subst hk
        simp [removeKey, lookupKey, h, ih]
      · simp [removeKey, hk, lookupKey, ih]

/-- With duplicate-free keys, a key determines its entry. -/
theorem value_eq_of_mem_of_nodup {α β : Type} [DecidableEq α]
    {l : List (α × β)} (hnd : (l.map Prod.fst).Nodup)
    {a : α} {b₁ b₂ : β} (h₁ : (a, b₁) ∈ l) (h₂ : (a, b₂) ∈ l) : b₁ = b₂ := by
  induction l with
  | nil => cases h₁
  | cons hd rest ih =>
      obtain ⟨k, v⟩ := hd
      simp only [List.map_cons, List.nodup_cons] at hnd
      rcases List.mem_cons.mp h₁ with h₁' | h₁' <;> rcases List.mem_cons.mp h₂ with h₂' | h₂'
      · rw [Prod.mk.injEq] at h₁' h₂'
        rw [h₁'.2, h₂'.2]
      · cases h₁'
        exact absurd (List.mem_map.mpr ⟨_, h₂', rfl⟩) hnd.1
      · cases h₂'
        exact absurd (List.mem_map.mpr ⟨_, h₁', rfl⟩) hnd.1
      · exact ih hnd.2 h₁' h₂'

theorem lookupKey_eq_some_of_mem {α β : Type} [DecidableEq α]
    {l : List (α × β)} (hnd : (l.map Prod.fst).Nodup)
    {a : α} {b : β} (h : (a, b) ∈ l) : lookupKey l a = some b := by
  induction l with
  | nil => cases h
  | cons hd rest ih =>
      obtain ⟨k, v⟩ := hd
      simp only [List.map_cons, List.nodup_cons] at hnd
      rcases List.mem_cons.mp h with h' | h'
      · cases h'
        simp [lookupKey]
      · have hk : k ≠ a := by
          intro hk
          subst hk
          exact hnd.1 (List.mem_map.mpr ⟨_, h', rfl⟩)
        simp [lookupKey, hk, ih hnd.2 h']

theorem mem_of_lookupKey_eq_some {α β : Type} [DecidableEq α]
    {l : List (α × β)} {a : α} {b : β} (h : lookupKey l a = some b) : (a, b) ∈ l := by
  induction l with
  | nil => simp [lookupKey] at h
  | cons hd rest ih =>
      obtain ⟨k, v⟩ := hd
      by_cases hk : k = a
      · subst hk
        simp only [lookupKey_cons, if_pos, Option.some.injEq] at h
        subst h
        exact List.mem_cons_self _ _
      · simp only [lookupKey, if_neg hk] at h
        exact List.mem_cons_of_mem _ (ih h)

/-- Looking a key up in either of two duplicate-free-key permutations of the
same association list gives the same answer.  (A Go `range` over one map may
present the entries in any order.) -/
theorem lookupKey_eq_of_perm {α β : Type} [DecidableEq α]
    {l₁ l₂ : List (α × β)} (h : l₁.Perm l₂) (hnd : (l₁.map Prod.fst).Nodup)
    (a : α) : lookupKey l₁ a = lookupKey l₂ a := by
  cases h₁ : lookupKey l₁ a with
  | none =>
      cases h₂ : lookupKey l₂ a with
      | none => rfl
      | some b =>
          have hm := mem_of_lookupKey_eq_some h₂
          have := lookupKey_eq_some_of_mem hnd (h.symm.subset hm)
          rw [h₁] at this
          cases this
  | some b =>
      have hm := mem_of_lookupKey_eq_some h₁
      have hnd₂ : (l₂.map Prod.fst).Nodup := ((h.map Prod.fst).nodup_iff).mp hnd
      exact (lookupKey_eq_some_of_mem hnd₂ (h.subset hm)).symm

/-! ## Data model (`main.go` lines 28-89, identical in the single-tenant file) -/

/-- The nested `Leverage` struct of `Position`. -/
structure Leverage where
  type : String
  value : Int
  rawUsd : String
deriving DecidableEq

/-- `Position` (`main.go:28`): all numeric fields arrive as decimal text and
are stored here as their parse result (`none` = unparseable text). -/
structure Position where
  coin : String
  szi : Option ℚ
  leverage : Leverage
  entryPx : Option ℚ
  positionValue : Option ℚ
  unrealizedPnl : Option ℚ
  returnOnEquity : Option ℚ
  liquidationPx : Option ℚ
  marginUsed : Option ℚ
  maxLeverage : Int
  cumFundingAllTime : Option ℚ
  cumFundingSinceOpen : Option ℚ
deriving DecidableEq

/-- `strconv.ParseFloat` with the error ignored: an unparseable string leaves
the float64 zero value. -/
def parseFloatOrZero (o : Option ℚ) : ℚ := o.getD 0

/-- `AccountState` (`main.go:86`): the persisted last-observed snapshot. -/
structure AccountState where
  lastPositions : List (String × Position)
  lastAccountValue : ℚ
deriving DecidableEq

/-- `WalletConfig` (`main.go:80`): one subscription's metadata. -/
structure WalletConfig where
  address : String
  name : String
  chatID : String
deriving DecidableEq

/-- `shortenAddress` (`main.go:752`): keep the first 6 and last 4 characters
of any identifier longer than 10 characters. -/
def shortenAddress (address : String) : String :=
  if address.length ≤ 10 then address
  else address.take 6 ++ "..." ++ String.mk (address.data.drop (address.length - 4))

/-- Decimal rendering with a fixed number of fraction digits, modelling
`fmt.Sprintf` `%.2f` / `%.5f` (rounding to nearest, halves away from zero). -/
def fmtFixed (digits : Nat) (q : ℚ) : String :=
  let p : Nat := 10 ^ digits
  let n : Nat := (|q| * (p : ℚ) + 1 / 2).floor.toNat
  let ip := n / p
  let fp := n % p
  let fpStr := toString fp
  let pad := String.mk (List.replicate (digits - fpStr.length) '0') ++ fpStr
  (if q < 0 then "-" else "") ++ toString ip ++ "." ++ pad

/-! ## Change-detection engine, multi-tenant variant (`main.go:673-750`) -/

namespace Multi

/-- The typed events a `detectPositionChanges` report consists of, in the
order the string builder appends them. -/
inductive Event where
  | opened (coin : String) (pos : Position)
  | resized (coin : String) (lastSzi currentSzi pct : ℚ) (increased : Bool)
  | closed (coin : String)
deriving DecidableEq

/-- The size-change percentage of `main.go:691-694`: zero when the previous
size parses to zero, else `|((current − last) / last)| * 100`. -/
def sziPct (lastSzi currentSzi : ℚ) : ℚ :=
  if lastSzi ≠ 0 then |(currentSzi - lastSzi) / lastSzi| * 100 else 0

/-- Body of the first loop of `detectPositionChanges` (`main.go:677-711`) for
one entry of `currentPositions`. -/
def coinStep (state : AccountState) (cp : String × Position) : Option Event :=
  match lookupKey state.lastPositions cp.1 with
  | none => some (.opened cp.1 cp.2)
  | some last =>
      let currentSzi := parseFloatOrZero cp.2.szi
      let lastSzi := parseFloatOrZero last.szi
      let sziChangePercent := sziPct lastSzi currentSzi
      if sziChangePercent ≥ 1 then
        some (.resized cp.1 lastSzi currentSzi sziChangePercent
          (decide (|currentSzi| > |lastSzi|)))
      else none

/-- Body of the second loop of `detectPositionChanges` (`main.go:713-721`) for
one entry of `state.LastPositions`. -/
def closedStep (currentPositions : List (String × Position))
    (lp : String × Position) : Option Event :=
  if (lookupKey currentPositions lp.1).isNone then some (.closed lp.1) else none

/-- The event sequence `detectPositionChanges` appends to its report: the
first loop walks `currentPositions` in its iteration order, the second walks
`state.LastPositions`. -/
def detectEvents (currentPositions : List (String × Position))
    (state : AccountState) : List Event :=
  currentPositions.filterMap (coinStep state)
    ++ state.lastPositions.filterMap (closedStep currentPositions)

/-- `addPositionDetails` (`main.go:726-750`), returning the text it appends
to `*message`. -/
def addPositionDetails (message : String) (position : Position) : String :=
  let szi := parseFloatOrZero position.szi
  let entryPx := parseFloatOrZero position.entryPx
  let posValue := parseFloatOrZero position.positionValue
  let unrealizedPnl := parseFloatOrZero position.unrealizedPnl
  let roi := parseFloatOrZero position.returnOnEquity
  let liquidationPx := parseFloatOrZero position.liquidationPx
  let direction := if szi < 0 then "空头" else "多头"
  let sziDisp := if szi < 0 then -szi else szi
  let pnlEmoji := if unrealizedPnl ≥ 0 then "🟢" else "🔴"
  message
    ++ "   " ++ position.coin ++ " (" ++ direction ++ ")\n"
    ++ "   📈 仓位大小: " ++ fmtFixed 5 sziDisp ++ " ($" ++ fmtFixed 2 posValue ++ ")\n"
    ++ "   🏷️ 入场价格: $" ++ fmtFixed 2 entryPx ++ "\n"
    ++ "   📊 杠杆: " ++ toString position.leverage.value ++ "x\n"
    ++ "   " ++ pnlEmoji ++ " 盈亏: $" ++ fmtFixed 2 unrealizedPnl
    ++ " (" ++ fmtFixed 2 (roi * 100) ++ "%)\n"
    ++ "   ⚠️ 强平价格: $" ++ fmtFixed 2 liquidationPx ++ "\n\n"

/-- The text block one event contributes to the `changes` string. -/
def renderEvent : Event → String
  | .opened coin pos => "🆕 新开仓位: " ++ coin ++ "\n" ++ addPositionDetails "" pos
  | .resized coin lastSzi currentSzi pct increased =>
      (if increased then "📈 仓位增加: " else "📉 仓位减少: ") ++ coin ++ "\n"
        ++ "   从: " ++ fmtFixed 5 lastSzi ++ "\n"
        ++ "   到: " ++ fmtFixed 5 currentSzi ++ "\n"
        ++ "   变化: " ++ fmtFixed 2 pct ++ "%\n\n"
  | .closed coin => "❌ 已关闭仓位: " ++ coin ++ "\n\n"

/-- The header prepended once the first change is found (`main.go:680-683`). -/
def changesHeader (wallet : WalletConfig) (timeStamp : String) : String :=
  "🔄 HyperLiquid持仓变化 - " ++ wallet.name ++ " (" ++ timeStamp ++ ")\n\n"
    ++ "💼 账户地址: " ++ shortenAddress wallet.address ++ "\n\n"

/-- `detectPositionChanges` (`main.go:673-724`).  The source builds the
string in one pass, writing the header when the first event is found; this
is the same string as header-plus-rendered-events when any event exists, and
`""` when none does.  `currentAccountValue` is a parameter of the Go
function but is never read (the multi-tenant variant does not report
account-value changes). -/
def detectPositionChanges (wallet : WalletConfig)
    (currentPositions : List (String × Position)) (currentAccountValue : ℚ)
    (state : AccountState) (timeStamp : String) : String :=
  let events := detectEvents currentPositions state
  if events.isEmpty then ""
  else changesHeader wallet timeStamp ++ String.join (events.map renderEvent)

/-- `generateInitialStatusMessage`'s per-position block (`main.go:596-622`). -/
def renderInitialPosition (position : Position) : String :=
  let szi := parseFloatOrZero position.szi
  let entryPx := parseFloatOrZero position.entryPx
  let posValue := parseFloatOrZero position.positionValue
  let unrealizedPnl := parseFloatOrZero position.unrealizedPnl
  let roi := parseFloatOrZero position.returnOnEquity
  let liquidationPx := parseFloatOrZero position.liquidationPx
  let marginUsed := parseFloatOrZero position.marginUsed
  let direction := if szi < 0 then "空头" else "多头"
  let sziDisp := if szi < 0 then -szi else szi
  let pnlEmoji := if unrealizedPnl ≥ 0 then "🟢" else "🔴"
  "🪙 " ++ position.coin ++ " (" ++ direction ++ ")\n"
    ++ "📈 仓位大小: " ++ fmtFixed 5 sziDisp ++ " ($" ++ fmtFixed 2 posValue ++ ")\n"
    ++ "🏷️ 入场价格: $" ++ fmtFixed 2 entryPx ++ "\n"
    ++ "📊 杠杆: " ++ toString position.leverage.value ++ "x ("
    ++ position.leverage.type ++ ")\n"
    ++ pnlEmoji ++ " 盈亏: $" ++ fmtFixed 2 unrealizedPnl
    ++ " (" ++ fmtFixed 2 (roi * 100) ++ "%)\n"
    ++ "⚠️ 强平价格: $" ++ fmtFixed 2 liquidationPx ++ "\n"
    ++ "💸 已用保证金: $" ++ fmtFixed 2 marginUsed ++ "\n\n"

/-- `generateInitialStatusMessage` (`main.go:588-628`). -/
def generateInitialStatusMessage (wallet : WalletConfig)
    (positions : List (String × Position)) (accountValue : ℚ)
    (timeStamp : String) : String :=
  "🔄 HyperLiquid初始持仓状态 - " ++ wallet.name ++ " (" ++ timeStamp ++ ")\n\n"
    ++ "💼 账户地址: " ++ shortenAddress wallet.address ++ "\n"
    ++ "💰 账户价值: $" ++ fmtFixed 2 accountValue ++ "\n\n"
    ++ (if positions.isEmpty then "没有找到开放的持仓。\n"
        else "📊 当前持仓:\n\n"
          ++ String.join (positions.map (fun cp => renderInitialPosition cp.2)))
    ++ "🔔 持仓监控已启动，将在仓位变化时发送通知。"

/-- The response fields `fetchPositions` reads (`main.go:55-72`). -/
structure MarginSummary where
  accountValue : Option ℚ
deriving DecidableEq

/-- Decoded API response, restricted to the fields `fetchPositions` uses. -/
structure FetchResponse where
  marginSummary : MarginSummary
  assetPositions : List Position
deriving DecidableEq

/-- The post-decode processing of `fetchPositions` (`main.go:664-670`): parse
the account value (zero on failure) and index positions by coin. -/
def fetchDecode (r : FetchResponse) : List (String × Position) × ℚ :=
  (r.assetPositions.foldl (fun m pos => upsert m pos.coin pos) [],
    parseFloatOrZero r.marginSummary.accountValue)

end Multi

/-! ## Change-detection engine, single-tenant variant
(`src/unnamed/part_000`, `detectPositionChanges` lines 319-437) -/

namespace Single

/-- Events of the single-tenant report; `closed` also prints the last size,
and an account-value change can be reported on its own. -/
inductive SEvent where
  | opened (coin : String) (pos : Position)
  | resized (coin : String) (lastSzi currentSzi pct : ℚ) (increased : Bool)
  | closed (coin : String) (lastSzi : ℚ)
  | accountChanged (fromValue toValue change pct : ℚ)
deriving DecidableEq

def SEvent.isAccountChanged : SEvent → Bool
  | .accountChanged _ _ _ _ => true
  | _ => false

def SEvent.isPositionEvent : SEvent → Bool
  | .accountChanged _ _ _ _ => false
  | _ => true

/-- Account-value change percentage (`part_000:324-328`): zero unless the
previous value is positive. -/
def acctPct (currentAccountValue : ℚ) (state : AccountState) : ℚ :=
  if state.lastAccountValue > 0 then
    (currentAccountValue - state.lastAccountValue) / state.lastAccountValue * 100
  else 0

/-- First-loop body (`part_000:337-379`): new position or size change. -/
def coinStep (state : AccountState) (cp : String × Position) : Option SEvent :=
  match lookupKey state.lastPositions cp.1 with
  | none => some (.opened cp.1 cp.2)
  | some last =>
      let currentSzi := parseFloatOrZero cp.2.szi
      let lastSzi := parseFloatOrZero last.szi
      let sziChangePercent := Multi.sziPct lastSzi currentSzi
      if sziChangePercent ≥ 1 then
        some (.resized cp.1 lastSzi currentSzi sziChangePercent
          (decide (|currentSzi| > |lastSzi|)))
      else none

/-- Second-loop body (`part_000:383-394`): closed position. -/
def closedStep (currentPositions : List (String × Position))
    (lp : String × Position) : Option SEvent :=
  if (lookupKey currentPositions lp.1).isNone then
    some (.closed lp.1 (parseFloatOrZero lp.2.szi))
  else none

/-- The Opened/Resized/Closed events of one detection call. -/
def positionEvents (currentPositions : List (String × Position))
    (state : AccountState) : List SEvent :=
  currentPositions.filterMap (coinStep state)
    ++ state.lastPositions.filterMap (closedStep currentPositions)

/-- Event content of the single-tenant `detectPositionChanges`: the position
events, except that when the account value moved by at least 1% and no
position event fired, a standalone account-value event is reported instead
(`part_000:396-434`). -/
def detectEvents (currentPositions : List (String × Position))
    (currentAccountValue : ℚ) (state : AccountState) : List SEvent :=
  let posEvents := positionEvents currentPositions state
  let significantAccountChange := |acctPct currentAccountValue state| ≥ 1
  if significantAccountChange ∧ posEvents.isEmpty then
    [.accountChanged state.lastAccountValue currentAccountValue
      (currentAccountValue - state.lastAccountValue)
      (acctPct currentAccountValue state)]
  else posEvents

end Single

/-! ## Subscription registry, stores and poll orchestrator (`main.go`) -/

/-- The mutable program state the claims are about: the in-memory maps
`wallets` (keyed by `chatID_address`, modelled as the pair) and
`accountStates`, plus the two durable SQLite tables they mirror
(`subscriptions` and `account_states`).  Durable writes are modelled as
always succeeding; the source only logs their errors. -/
structure SysState where
  wallets : List ((String × String) × WalletConfig)
  accountStates : List (String × AccountState)
  dbSubscriptions : List ((String × String) × String)
  dbAccountStates : List (String × AccountState)
deriving DecidableEq

/-- `hasSubscribers` (`main.go:475-483`): is any subscription for `address`
held by a chat other than `excludeChatID`? -/
def hasSubscribers (address excludeChatID : String)
    (wallets : List ((String × String) × WalletConfig)) : Bool :=
  wallets.any fun kv =>
    decide (kv.2.address = address ∧ kv.2.chatID ≠ excludeChatID)

/-- `subscribeWallet` (`main.go:417-472`).  The asynchronous initial-fetch
goroutine is sequentialised after the synchronous part; its fetch outcome is
the `fetchResult` argument (`none` = `fetchPositions` failed).  Returns the
new state and the messages sent to the subscriber (recipient, text). -/
def subscribeWallet (chatID address name : String)
    (fetchResult : Option (List (String × Position) × ℚ))
    (timeStamp : String) (st : SysState) : SysState × List (String × String) :=
  let key := (chatID, address)
  match lookupKey st.wallets key with
  | some _ => (st, [(chatID, "地址 " ++ shortenAddress address ++ " 已订阅")])
  | none =>
      let wallet : WalletConfig := ⟨address, name, chatID⟩
      let st1 : SysState :=
        { st with
          wallets := upsert st.wallets key wallet
          dbSubscriptions := upsert st.dbSubscriptions key name }
      -- first subscriber of a previously-untracked address: zero baseline
      let st2 : SysState :=
        if (lookupKey st1.accountStates address).isNone then
          { st1 with accountStates := upsert st1.accountStates address ⟨[], 0⟩ }
        else st1
      let confirmMsg := (chatID, "已订阅地址 " ++ shortenAddress address ++ " (" ++ name ++ ")")
      match fetchResult with
      | none =>
          (st2, [confirmMsg,
            (chatID, "获取地址 " ++ shortenAddress address ++ " 初始状态失败")])
      | some (currentPositions, currentAccountValue) =>
          let initialMsg := (chatID,
            Multi.generateInitialStatusMessage wallet currentPositions
              currentAccountValue timeStamp)
          if st2.wallets.length = 1 ∨ hasSubscribers address chatID st2.wallets = false then
            let newState : AccountState := ⟨currentPositions, currentAccountValue⟩
            ({ st2 with
                accountStates := upsert st2.accountStates address newState
                dbAccountStates := upsert st2.dbAccountStates address newState },
              [confirmMsg, initialMsg])
          else (st2, [confirmMsg, initialMsg])

/-- `unsubscribeWallet` (`main.go:485-510`). -/
def unsubscribeWallet (chatID address : String) (st : SysState) :
    SysState × List (String × String) :=
  let key := (chatID, address)
  match lookupKey st.wallets key with
  | none => (st, [(chatID, "地址 " ++ shortenAddress address ++ " 未被订阅")])
  | some _ =>
      let st1 : SysState :=
        { st with
          wallets := removeKey st.wallets key
          dbSubscriptions := removeKey st.dbSubscriptions key }
      let st2 : SysState :=
        if hasSubscribers address "" st1.wallets then st1
        else
          { st1 with
            accountStates := removeKey st1.accountStates address
            dbAccountStates := removeKey st1.dbAccountStates address }
      (st2, [(chatID, "已取消订阅地址 " ++ shortenAddress address)])

/-- Step of the grouping loop of `monitorAllWallets` (`main.go:539-542`):
`addressSubscribers[wallet.Address] = append(..., wallet)`. -/
def groupInsert (w : WalletConfig) :
    List (String × List WalletConfig) → List (String × List WalletConfig)
  | [] => [(w.address, [w])]
  | (a, ws) :: rest =>
      if a = w.address then (a, ws ++ [w]) :: rest else (a, ws) :: groupInsert w rest

/-- Group the subscription registry by address (the dedup step). -/
def groupByAddress (l : List WalletConfig) : List (String × List WalletConfig) :=
  l.foldl (fun gs w => groupInsert w gs) []

/-- The per-address body of `monitorAllWallets` (`main.go:545-579`).
`fetchF` is the single `fetchPositions` request issued for the address
(`none` = error: log and skip); `sendOk` gives each delivery's outcome,
which the source logs and otherwise ignores.  Returns the new state and the
messages handed to the chat transport. -/
def processAddress (fetchF : String → Option (List (String × Position) × ℚ))
    (sendOk : String → String → Bool) (timeStamp : String)
    (address : String) (subscribers : List WalletConfig) (st : SysState) :
    SysState × List (String × String) :=
  match fetchF address with
  | none => (st, [])
  | some (currentPositions, currentAccountValue) =>
      let state := (lookupKey st.accountStates address).getD ⟨[], 0⟩
      let st1 : SysState :=
        if (lookupKey st.accountStates address).isNone then
          { st with accountStates := upsert st.accountStates address ⟨[], 0⟩ }
        else st
      match subscribers with
      | [] => (st1, [])
      | w0 :: _ =>
          let changes :=
            Multi.detectPositionChanges w0 currentPositions currentAccountValue
              state timeStamp
          if changes = "" then (st1, [])
          else
            let msgs := subscribers.map fun w =>
              (w.chatID,
                Multi.detectPositionChanges w currentPositions currentAccountValue
                  state timeStamp)
            -- delivery attempted for every subscriber; failures only logged
            let _ := msgs.map fun m => sendOk m.1 m.2
            let newState : AccountState := ⟨currentPositions, currentAccountValue⟩
            ({ st1 with
                accountStates := upsert st1.accountStates address newState
                dbAccountStates := upsert st1.dbAccountStates address newState },
              msgs)

/-- Sequential loop over the address groups; also returns the list of
addresses for which a fetch was issued, in order. -/
def runGroups (fetchF : String → Option (List (String × Position) × ℚ))
    (sendOk : String → String → Bool) (timeStamp : String) :
    List (String × List WalletConfig) → SysState →
    SysState × List (String × String) × List String
  | [], st => (st, [], [])
  | g :: rest, st =>
      let step := processAddress fetchF sendOk timeStamp g.1 g.2 st
      let next := runGroups fetchF sendOk timeStamp rest step.1
      (next.1, step.2 ++ next.2.1, g.1 :: next.2.2)

/-- `monitorAllWallets` (`main.go:530-580`): snapshot the registry, group by
address, then process each unique address once. -/
def monitorAllWallets (fetchF : String → Option (List (String × Position) × ℚ))
    (sendOk : String → String → Bool) (timeStamp : String) (st : SysState) :
    SysState × List (String × String) × List String :=
  runGroups fetchF sendOk timeStamp
    (groupByAddress (st.wallets.map Prod.snd)) st

/-! ## Helper lemmas -/

theorem detectEvents_nil_baseline (curr : List (String × Position)) (v : ℚ) :
    Multi.detectEvents curr ⟨[], v⟩
      = curr.map fun cp => Multi.Event.opened cp.1 cp.2 := by
  unfold Multi.detectEvents
  simp only [List.filterMap_nil, List.append_nil]
  induction curr with
  | nil => rfl
  | cons hd tl ih =>
      simp only [List.filterMap_cons, List.map_cons]
      rw [show Multi.coinStep ⟨[], v⟩ hd = some (.opened hd.1 hd.2) from rfl, ih]

theorem closed_of_mem_closedSteps {curr l : List (String × Position)}
    {e : Multi.Event} (h : e ∈ l.filterMap (Multi.closedStep curr)) :
    ∃ coin, e = Multi.Event.closed coin := by
  rcases List.mem_filterMap.mp h with ⟨lp, _, hstep⟩
  unfold Multi.closedStep at hstep
  by_cases hc : (lookupKey curr lp.1).isNone
  · rw [if_pos hc] at hstep
    exact ⟨lp.1, (Option.some.injEq _ _ ▸ hstep).symm⟩
  · rw [if_neg hc] at hstep
    cases hstep

/-- A concrete position used in the witnesses below. -/
def posBTC : Position :=
  ⟨"BTC", some 1, ⟨"cross", 3, "0"⟩, some 50000, some 50000, some 10,
    some (1/20), some 40000, some 100, 50, some 0, some 0⟩

/-! ## Claim C3 -/

/-- C3: for a previous AccountState with an empty positions map (the
zero-valued baseline of a new address) and a non-empty current snapshot,
detection yields exactly one Opened event per instrument of the current
snapshot — in snapshot order — and no Resized or Closed events. -/
theorem empty_baseline_all_opened
    (curr : List (String × Position)) (state : AccountState)
    (hprev : state.lastPositions = []) (hne : curr ≠ []) :
    Multi.detectEvents curr state
        = (curr.map fun cp => Multi.Event.opened cp.1 cp.2)
      ∧ Multi.detectEvents curr state ≠ [] := by
  obtain ⟨lp, v⟩ := state
  cases hprev
  refine ⟨detectEvents_nil_baseline curr v, ?_⟩
  rw [detectEvents_nil_baseline curr v]
  simpa using hne

theorem empty_baseline_all_opened_witness :
    ([("BTC", posBTC)] : List (String × Position)) ≠ []
      ∧ Multi.detectEvents [("BTC", posBTC)] ⟨[], 0⟩
          = [Multi.Event.opened "BTC" posBTC] :=
  ⟨by decide,
    (empty_baseline_all_opened [("BTC", posBTC)] ⟨[], 0⟩ rfl (by decide)).1⟩

/-! ## Claim C5 -/

theorem not_account_of_mem_positionEvents {c : List (String × Position)}
    {s : AccountState} {e : Single.SEvent}
    (h : e ∈ Single.positionEvents c s) : e.isAccountChanged = false := by
  rcases List.mem_append.mp h with h1 | h2
  · rcases List.mem_filterMap.mp h1 with ⟨cp, _, hstep⟩
    unfold Single.coinStep at hstep
    rcases hl : lookupKey s.lastPositions cp.1 with _ | last
    · rw [hl] at hstep
      cases hstep
      rfl
    · rw [hl] at hstep
      simp only at hstep
      by_cases hge : Multi.sziPct (parseFloatOrZero last.szi)
          (parseFloatOrZero cp.2.szi) ≥ 1
      · rw [if_pos hge] at hstep
        cases hstep
        rfl
      · rw [if_neg hge] at hstep
        cases hstep
  · rcases List.mem_filterMap.mp h2 with ⟨lp, _, hstep⟩
    unfold Single.closedStep at hstep
    by_cases hc : (lookupKey c lp.1).isNone
    · rw [if_pos hc] at hstep
      cases hstep
      rfl
    · rw [if_neg hc] at hstep
      cases hstep

theorem position_of_mem_positionEvents {c : List (String × Position)}
    {s : AccountState} {e : Single.SEvent}
    (h : e ∈ Single.positionEvents c s) : e.isPositionEvent = true := by
  cases e with
  | accountChanged f t ch p =>
      have := not_account_of_mem_positionEvents h
      cases this
  | opened coin pos => rfl
  | resized coin ls cs pct inc => rfl
  | closed coin ls => rfl

/-- C5: in the single-tenant variant, a standalone account-value-change
event is reported exactly when the account value moved by at least 1%
(with the percentage defined as 0 when the previous equity is ≤ 0) and no
Opened / Resized / Closed event fired in the same detection call: position
events take strict precedence over the account-level summary. -/
theorem account_value_event_iff (c : List (String × Position)) (v : ℚ)
    (s : AccountState) :
    (∃ e ∈ Single.detectEvents c v s, e.isAccountChanged = true)
      ↔ (|Single.acctPct v s| ≥ 1
          ∧ ∀ e ∈ Single.detectEvents c v s, e.isPositionEvent = false) := by
  unfold Single.detectEvents
  by_cases hcond : |Single.acctPct v s| ≥ 1 ∧ (Single.positionEvents c s).isEmpty
  · simp only [if_pos hcond]
    constructor
    · intro _
      refine ⟨hcond.1, ?_⟩
      intro e he
      rcases List.mem_singleton.mp he with rfl
      rfl
    · intro _
      exact ⟨_, List.mem_singleton.mpr rfl, rfl⟩
  · simp only [if_neg hcond]
    constructor
    · rintro ⟨e, he, hacc⟩
      rw [not_account_of_mem_positionEvents he] at hacc
      cases hacc
    · rintro ⟨hpct, hall⟩
      have hne : (Single.positionEvents c s) ≠ [] := by
        intro h
        exact hcond ⟨hpct, by rw [h]; rfl⟩
      obtain ⟨e, he⟩ := List.exists_mem_of_ne_nil _ hne
      have h1 := hall e he
      have h2 := position_of_mem_positionEvents he
      rw [h1] at h2
      cases h2

/-! ## Claim C2 -/

/-- C2: for an instrument present in both the previous state and the current
snapshot, a Resized event is reported exactly when the size-change
percentage (0 when the previous size parses to 0) is at least 1, and any
Resized event reported for the instrument carries those parse values, that
percentage, and the "increased" label exactly when the current absolute
size exceeds the previous absolute size. -/
theorem resized_event_iff_threshold
    (currentPositions : List (String × Position)) (state : AccountState)
    (coin : String) (cur last : Position)
    (hmem : (coin, cur) ∈ currentPositions)
    (hnd : (currentPositions.map Prod.fst).Nodup)
    (hlast : lookupKey state.lastPositions coin = some last) :
    (Multi.Event.resized coin (parseFloatOrZero last.szi)
          (parseFloatOrZero cur.szi)
          (Multi.sziPct (parseFloatOrZero last.szi) (parseFloatOrZero cur.szi))
          (decide (|parseFloatOrZero cur.szi| > |parseFloatOrZero last.szi|))
        ∈ Multi.detectEvents currentPositions state
      ↔ Multi.sziPct (parseFloatOrZero last.szi) (parseFloatOrZero cur.szi) ≥ 1)
    ∧ ∀ ls cs pct inc,
        Multi.Event.resized coin ls cs pct inc
            ∈ Multi.detectEvents currentPositions state →
          ls = parseFloatOrZero last.szi ∧ cs = parseFloatOrZero cur.szi
            ∧ pct = Multi.sziPct (parseFloatOrZero last.szi) (parseFloatOrZero cur.szi)
            ∧ inc = decide (|parseFloatOrZero cur.szi| > |parseFloatOrZero last.szi|) := by
  have huniq : ∀ ls cs pct inc,
      Multi.Event.resized coin ls cs pct inc
          ∈ Multi.detectEvents currentPositions state →
        ls = parseFloatOrZero last.szi ∧ cs = parseFloatOrZero cur.szi
          ∧ pct = Multi.sziPct (parseFloatOrZero last.szi) (parseFloatOrZero cur.szi)
          ∧ inc = decide (|parseFloatOrZero cur.szi| > |parseFloatOrZero last.szi|)
          ∧ Multi.sziPct (parseFloatOrZero last.szi) (parseFloatOrZero cur.szi) ≥ 1 := by
    intro ls cs pct inc hin
    rcases List.mem_append.mp hin with h1 | h2
    · rcases List.mem_filterMap.mp h1 with ⟨cp, hcp, hstep⟩
      unfold Multi.coinStep at hstep
      rcases hl : lookupKey state.lastPositions cp.1 with _ | last'
      · rw [hl] at hstep
        cases hstep
      · rw [hl] at hstep
        simp only at hstep
        by_cases hge : Multi.sziPct (parseFloatOrZero last'.szi)
            (parseFloatOrZero cp.2.szi) ≥ 1
        · rw [if_pos hge] at hstep
          obtain ⟨hcoin, hls, hcs, hpct, hinc⟩ :=
            Multi.Event.resized.inj (Option.some.inj hstep)
          obtain ⟨c1, p1⟩ := cp
          cases hcoin
          have hp : p1 = cur := value_eq_of_mem_of_nodup hnd hcp hmem
          cases hp
          rw [hlast] at hl
          cases Option.some.inj hl
          exact ⟨hls.symm, hcs.symm, hpct.symm, hinc.symm, hpct ▸ hge⟩
        · rw [if_neg hge] at hstep
          cases hstep
    · obtain ⟨co, hco⟩ := closed_of_mem_closedSteps h2
      cases hco
  constructor
  · constructor
    · intro hin
      exact (huniq _ _ _ _ hin).2.2.2.2
    · intro hge
      refine List.mem_append.mpr (Or.inl (List.mem_filterMap.mpr
        ⟨(coin, cur), hmem, ?_⟩))
      unfold Multi.coinStep
      rw [hlast]
      simp only
      rw [if_pos hge]
  · intro ls cs pct inc hin
    obtain ⟨h1, h2, h3, h4, _⟩ := huniq ls cs pct inc hin
    exact ⟨h1, h2, h3, h4⟩

/-- A previous-state position of size 100000 for the threshold witnesses. -/
def posPrev : Position :=
  ⟨"BTC", some 100000, ⟨"cross", 3, "0"⟩, some 1, some 1, some 0,
    some 0, some 1, some 1, 50, some 0, some 0⟩

/-- Size 101000: exactly +1.00000%. -/
def posUpOnePct : Position :=
  ⟨"BTC", some 101000, ⟨"cross", 3, "0"⟩, some 1, some 1, some 0,
    some 0, some 1, some 1, 50, some 0, some 0⟩

/-- Size 100999.99: +0.99999%. -/
def posUpBelowPct : Position :=
  ⟨"BTC", some (10099999 / 100), ⟨"cross", 3, "0"⟩, some 1, some 1, some 0,
    some 0, some 1, some 1, 50, some 0, some 0⟩

theorem resized_event_iff_threshold_witness :
    Multi.Event.resized "BTC" 100000 101000 1 true
        ∈ Multi.detectEvents [("BTC", posUpOnePct)] ⟨[("BTC", posPrev)], 0⟩
      ∧ Multi.Event.resized "BTC" 100000 ((10099999 : ℚ) / 100)
            ((99999 : ℚ) / 100000) true
          ∉ Multi.detectEvents [("BTC", posUpBelowPct)] ⟨[("BTC", posPrev)], 0⟩ := by
  constructor
  · have heq : Multi.Event.resized "BTC" (parseFloatOrZero posPrev.szi)
        (parseFloatOrZero posUpOnePct.szi)
        (Multi.sziPct (parseFloatOrZero posPrev.szi) (parseFloatOrZero posUpOnePct.szi))
        (decide (|parseFloatOrZero posUpOnePct.szi| > |parseFloatOrZero posPrev.szi|))
        = Multi.Event.resized "BTC" 100000 101000 1 true := by
      simp only [Multi.Event.resized.injEq]
      norm_num [posPrev, posUpOnePct, parseFloatOrZero, Multi.sziPct, abs_of_nonneg]
    exact heq ▸ (resized_event_iff_threshold [("BTC", posUpOnePct)]
      ⟨[("BTC", posPrev)], 0⟩ "BTC" posUpOnePct posPrev (by simp) (by simp)
      (by simp [lookupKey])).1.mpr
      (by norm_num [posPrev, posUpOnePct, parseFloatOrZero, Multi.sziPct, abs_of_nonneg])
  · intro hin
    have heq : Multi.Event.resized "BTC" 100000 ((10099999 : ℚ) / 100)
        ((99999 : ℚ) / 100000) true
        = Multi.Event.resized "BTC" (parseFloatOrZero posPrev.szi)
          (parseFloatOrZero posUpBelowPct.szi)
          (Multi.sziPct (parseFloatOrZero posPrev.szi) (parseFloatOrZero posUpBelowPct.szi))
          (decide (|parseFloatOrZero posUpBelowPct.szi| > |parseFloatOrZero posPrev.szi|)) := by
      simp only [Multi.Event.resized.injEq]
      norm_num [posPrev, posUpBelowPct, parseFloatOrZero, Multi.sziPct, abs_of_nonneg]
    have h := (resized_event_iff_threshold [("BTC", posUpBelowPct)]
      ⟨[("BTC", posPrev)], 0⟩ "BTC" posUpBelowPct posPrev (by simp) (by simp)
      (by simp [lookupKey])).1.mp (heq ▸ hin)
    exact absurd h
      (by norm_num [posPrev, posUpBelowPct, parseFloatOrZero, Multi.sziPct, abs_of_nonneg])

/-! ## Claim C1 -/

/-- C1 (amended): detection is deterministic up to the map iteration order.
For two presentations of the same (previous, current) pair — the same
entries, possibly enumerated in different orders by Go's `range` — the
reports contain the same events with the same numeric deltas (the event
lists are permutations of each other).  The order of events within the
rendered report, however, follows the enumeration order and is therefore
not fixed by (previous, current) alone; see
`detect_report_order_dependent`. -/
theorem detect_events_perm_invariant
    (c₁ c₂ : List (String × Position)) (s₁ s₂ : AccountState)
    (hc : c₁.Perm c₂) (hcnd : (c₁.map Prod.fst).Nodup)
    (hp : s₁.lastPositions.Perm s₂.lastPositions)
    (hpnd : (s₁.lastPositions.map Prod.fst).Nodup)
    (hv : s₁.lastAccountValue = s₂.lastAccountValue) :
    (Multi.detectEvents c₁ s₁).Perm (Multi.detectEvents c₂ s₂) := by
  have hcoin : Multi.coinStep s₁ = Multi.coinStep s₂ := by
    funext cp
    unfold Multi.coinStep
    rw [lookupKey_eq_of_perm hp hpnd]
  have hclosed : Multi.closedStep c₁ = Multi.closedStep c₂ := by
    funext lp
    unfold Multi.closedStep
    rw [lookupKey_eq_of_perm hc hcnd]
  unfold Multi.detectEvents
  refine List.Perm.append ?_ ?_
  · rw [hcoin]
    exact hc.filterMap _
  · rw [hclosed]
    exact hp.filterMap _

theorem detect_events_perm_invariant_witness :
    (Multi.detectEvents [("AAA", posBTC), ("BBB", posBTC)] ⟨[], 0⟩).Perm
      (Multi.detectEvents [("BBB", posBTC), ("AAA", posBTC)] ⟨[], 0⟩) :=
  detect_events_perm_invariant [("AAA", posBTC), ("BBB", posBTC)]
    [("BBB", posBTC), ("AAA", posBTC)] ⟨[], 0⟩ ⟨[], 0⟩
    (List.Perm.swap _ _ _) (by simp) (List.Perm.refl _) (by simp) rfl

/-- The wallet used by the order-dependence counterexample. -/
def walletW : WalletConfig := ⟨"0xabcdef1234", "w", "chat1"⟩

/-- C1 counterexample: two calls of `detectPositionChanges` on the same
wallet, the same previous AccountState and the same current snapshot — the
two argument lists are permutations of each other with distinct keys, i.e.
two iteration orders of one Go map — produce different rendered reports:
the two Opened blocks appear in different orders. -/
theorem detect_report_order_dependent :
    ([("AAA", posBTC), ("BBB", posBTC)] : List (String × Position)).Perm
        [("BBB", posBTC), ("AAA", posBTC)]
      ∧ Multi.detectPositionChanges walletW [("AAA", posBTC), ("BBB", posBTC)]
          0 ⟨[], 0⟩ "ts"
        ≠ Multi.detectPositionChanges walletW [("BBB", posBTC), ("AAA", posBTC)]
          0 ⟨[], 0⟩ "ts" :=
  ⟨List.Perm.swap _ _ _, by with_unfolding_all decide⟩

/-! ## Bridge between the report string and its events -/

theorem changesHeader_length_pos (w : WalletConfig) (t : String) :
    0 < (Multi.changesHeader w t).length := by
  unfold Multi.changesHeader
  have h : 0 < ("🔄 HyperLiquid持仓变化 - ").length := by decide
  simp only [String.length_append]
  omega

theorem detect_eq_empty_iff (w : WalletConfig) (c : List (String × Position))
    (v : ℚ) (s : AccountState) (t : String) :
    Multi.detectPositionChanges w c v s t = "" ↔ Multi.detectEvents c s = [] := by
  unfold Multi.detectPositionChanges
  by_cases h : (Multi.detectEvents c s).isEmpty
  · simp only [if_pos h]
    simp [List.isEmpty_iff.mp h]
  · simp only [if_neg h]
    constructor
    · intro heq
      have hl := congrArg String.length heq
      rw [String.length_append] at hl
      have := changesHeader_length_pos w t
      simp at hl
      omega
    · intro heq
      rw [heq] at h
      exact absurd rfl h

/-! ## Claim C4 -/

/-- C4: per-address behaviour of a poll cycle.  With a successful fetch and
at least one subscriber: the outcome does not depend on the delivery
results (`sendOk` vs `sendOk'`): a failed send is only logged.  If the
detected diff is non-empty, the fetched snapshot is stored in the in-memory
map and persisted to the durable store, and one rendered message per
subscriber is handed to the transport; if the diff is empty, the baseline
state is left as it was (the durable store untouched) and nothing is
sent. -/
theorem poll_persist_after_delivery
    (fetchF : String → Option (List (String × Position) × ℚ))
    (sendOk sendOk' : String → String → Bool) (t address : String)
    (w0 : WalletConfig) (rest : List WalletConfig) (st : SysState)
    (pos : List (String × Position)) (val : ℚ)
    (hfetch : fetchF address = some (pos, val)) :
    (processAddress fetchF sendOk' t address (w0 :: rest) st
        = processAddress fetchF sendOk t address (w0 :: rest) st)
    ∧ (Multi.detectEvents pos
          ((lookupKey st.accountStates address).getD ⟨[], 0⟩) ≠ [] →
        lookupKey (processAddress fetchF sendOk t address (w0 :: rest) st).1.accountStates
            address = some ⟨pos, val⟩
        ∧ lookupKey (processAddress fetchF sendOk t address (w0 :: rest) st).1.dbAccountStates
            address = some ⟨pos, val⟩
        ∧ (processAddress fetchF sendOk t address (w0 :: rest) st).2
            = (w0 :: rest).map fun w =>
              (w.chatID, Multi.detectPositionChanges w pos val
                ((lookupKey st.accountStates address).getD ⟨[], 0⟩) t))
    ∧ (Multi.detectEvents pos
          ((lookupKey st.accountStates address).getD ⟨[], 0⟩) = [] →
        lookupKey (processAddress fetchF sendOk t address (w0 :: rest) st).1.accountStates
            address = some ((lookupKey st.accountStates address).getD ⟨[], 0⟩)
        ∧ (processAddress fetchF sendOk t address (w0 :: rest) st).1.dbAccountStates
            = st.dbAccountStates
        ∧ (processAddress fetchF sendOk t address (w0 :: rest) st).2 = []) := by
  refine ⟨rfl, ?_, ?_⟩
  · intro hne
    have hch : Multi.detectPositionChanges w0 pos val
        ((lookupKey st.accountStates address).getD ⟨[], 0⟩) t ≠ "" := by
      intro h
      exact hne ((detect_eq_empty_iff _ _ _ _ _).mp h)
    unfold processAddress
    rw [hfetch]
    simp only [if_neg hch]
    refine ⟨lookupKey_upsert_self _ _ _, lookupKey_upsert_self _ _ _, ?_⟩
    trivial
  · intro hempty
    have hch : Multi.detectPositionChanges w0 pos val
        ((lookupKey st.accountStates address).getD ⟨[], 0⟩) t = "" :=
      (detect_eq_empty_iff _ _ _ _ _).mpr hempty
    unfold processAddress
    rw [hfetch]
    simp only [if_pos hch]
    rcases hl : lookupKey st.accountStates address with _ | s
    · simp only [hl, Option.isNone_none, if_pos rfl, Option.getD_none]
      refine ⟨lookupKey_upsert_self _ _ _, ?_, ?_⟩ <;> trivial
    · simp [hl]

/-- Fetch oracle used by the orchestrator witnesses below. -/
def fetchW : String → Option (List (String × Position) × ℚ) :=
  fun a => if a = "0xA" then some ([("BTC", posBTC)], 5) else none

/-- A one-subscriber system state used by the orchestrator witnesses. -/
def stW : SysState :=
  ⟨[(("chat1", "0xA"), ⟨"0xA", "n", "chat1"⟩)], [], [(("chat1", "0xA"), "n")], []⟩

theorem poll_persist_after_delivery_witness :
    fetchW "0xA" = some ([("BTC", posBTC)], (5 : ℚ))
    ∧ lookupKey (processAddress fetchW (fun _ _ => true) "ts" "0xA"
          [⟨"0xA", "n", "chat1"⟩] stW).1.accountStates "0xA"
        = some ⟨[("BTC", posBTC)], 5⟩ := by
  have hf : fetchW "0xA" = some ([("BTC", posBTC)], (5 : ℚ)) := rfl
  refine ⟨hf, ?_⟩
  refine ((poll_persist_after_delivery fetchW (fun _ _ => true) (fun _ _ => true)
    "ts" "0xA" ⟨"0xA", "n", "chat1"⟩ [] stW [("BTC", posBTC)] 5 hf).2.1 ?_).1
  rw [show (lookupKey stW.accountStates "0xA").getD ⟨[], 0⟩ = (⟨[], 0⟩ : AccountState)
    from rfl]
  rw [detectEvents_nil_baseline]
  simp

/-! ## Claim C8 -/

theorem mem_keys_groupInsert (w : WalletConfig)
    (gs : List (String × List WalletConfig)) (a : String) :
    a ∈ (groupInsert w gs).map Prod.fst
      ↔ a = w.address ∨ a ∈ gs.map Prod.fst := by
  induction gs with
  | nil => simp [groupInsert]
  | cons g rest ih =>
      obtain ⟨b, ws⟩ := g
      simp only [groupInsert]
      split
      next hb =>
        subst hb
        simp only [List.map_cons, List.mem_cons]
        tauto
      next hb =>
        simp only [List.map_cons, List.mem_cons, ih]
        tauto

theorem nodup_keys_groupInsert (w : WalletConfig)
    (gs : List (String × List WalletConfig))
    (h : (gs.map Prod.fst).Nodup) : ((groupInsert w gs).map Prod.fst).Nodup := by
  induction gs with
  | nil => simp [groupInsert]
  | cons g rest ih =>
      obtain ⟨b, ws⟩ := g
      simp only [List.map_cons, List.nodup_cons] at h
      simp only [groupInsert]
      split
      next hb =>
        simp only [List.map_cons, List.nodup_cons]
        exact h
      next hb =>
        simp only [List.map_cons, List.nodup_cons]
        refine ⟨?_, ih h.2⟩
        rw [mem_keys_groupInsert]
        rintro (hc | hc)
        · exact hb hc
        · exact h.1 hc

theorem keys_groupFold (l : List WalletConfig) :
    ∀ gs : List (String × List WalletConfig),
      (∀ a, a ∈ (l.foldl (fun acc w => groupInsert w acc) gs).map Prod.fst
        ↔ a ∈ gs.map Prod.fst ∨ ∃ w ∈ l, w.address = a)
      ∧ ((gs.map Prod.fst).Nodup →
          ((l.foldl (fun acc w => groupInsert w acc) gs).map Prod.fst).Nodup) := by
  induction l with
  | nil => intro gs; simp
  | cons w rest ih =>
      intro gs
      constructor
      · intro a
        rw [List.foldl_cons, (ih (groupInsert w gs)).1 a, mem_keys_groupInsert]
        simp only [List.mem_cons]
        constructor
        · rintro ((h | h) | ⟨w', hw', ha⟩)
          · exact Or.inr ⟨w, Or.inl rfl, h.symm⟩
          · exact Or.inl h
          · exact Or.inr ⟨w', Or.inr hw', ha⟩
        · rintro (h | ⟨w', hw' | hw', ha⟩)
          · exact Or.inl (Or.inr h)
          · subst hw'
            exact Or.inl (Or.inl ha.symm)
          · exact Or.inr ⟨w', hw', ha⟩
      · intro hnd
        rw [List.foldl_cons]
        exact (ih (groupInsert w gs)).2 (nodup_keys_groupInsert w gs hnd)

theorem runGroups_log (fetchF : String → Option (List (String × Position) × ℚ))
    (sendOk : String → String → Bool) (t : String)
    (gs : List (String × List WalletConfig)) :
    ∀ st : SysState,
      (runGroups fetchF sendOk t gs st).2.2 = gs.map Prod.fst := by
  induction gs with
  | nil => intro st; rfl
  | cons g rest ih =>
      intro st
      simp only [runGroups, List.map_cons, List.cons.injEq]
      exact ⟨trivial, ih _⟩

/-- C8: in every poll cycle, the subscription registry is grouped by address
and the fetch log — the addresses handed to `fetchPositions`, in order —
contains every subscribed address exactly once (it is duplicate-free and
its members are exactly the addresses referenced by some subscription),
regardless of how many subscribers reference an address.  Each group is then
handled by `processAddress`, which issues the one fetch and reuses it for
every subscriber of the address. -/
theorem fetch_once_per_address
    (fetchF : String → Option (List (String × Position) × ℚ))
    (sendOk : String → String → Bool) (t : String) (st : SysState) :
    ((monitorAllWallets fetchF sendOk t st).2.2).Nodup
    ∧ ∀ a, a ∈ (monitorAllWallets fetchF sendOk t st).2.2
        ↔ ∃ kv ∈ st.wallets, kv.2.address = a := by
  unfold monitorAllWallets groupByAddress
  rw [runGroups_log]
  constructor
  · exact (keys_groupFold (st.wallets.map Prod.snd) []).2 (by simp)
  · intro a
    rw [(keys_groupFold (st.wallets.map Prod.snd) []).1 a]
    simp only [List.map_nil, List.not_mem_nil, false_or, List.mem_map]
    constructor
    · rintro ⟨w, ⟨kv, hkv, rfl⟩, ha⟩
      exact ⟨kv, hkv, ha⟩
    · rintro ⟨kv, hkv, ha⟩
      exact ⟨kv.2, ⟨kv, hkv, rfl⟩, ha⟩

/-! ## Claim C10 -/

/-- C10: subscribing a (recipient, address) pair that is already subscribed
changes nothing — the registry, the AccountState map and both durable
tables are returned untouched — and the only effect is a single
"already subscribed" notice to the recipient. -/
theorem subscribe_idempotent (chatID address name t : String)
    (fetchResult : Option (List (String × Position) × ℚ)) (st : SysState)
    (w : WalletConfig)
    (hsub : lookupKey st.wallets (chatID, address) = some w) :
    subscribeWallet chatID address name fetchResult t st
      = (st, [(chatID, "地址 " ++ shortenAddress address ++ " 已订阅")]) := by
  unfold subscribeWallet
  simp only [hsub]

theorem subscribe_idempotent_witness :
    lookupKey stW.wallets ("chat1", "0xA") = some ⟨"0xA", "n", "chat1"⟩
    ∧ subscribeWallet "chat1" "0xA" "n2" none "ts" stW
        = (stW, [("chat1", "地址 " ++ shortenAddress "0xA" ++ " 已订阅")]) :=
  ⟨rfl, subscribe_idempotent "chat1" "0xA" "n2" "ts" none stW
    ⟨"0xA", "n", "chat1"⟩ rfl⟩

/-! ## Claim C6 -/

/-- C6: when another recipient already subscribes to the address and an
AccountState for it is established, a further subscribe by a different chat
does not overwrite the stored AccountState — neither in memory nor in the
durable store — whatever its initial fetch returns.  (`hkeys` is the
registry invariant that every entry is keyed by its own
`(chatID, address)`.) -/
theorem second_subscribe_preserves_state
    (chatID address name t : String)
    (fetchResult : Option (List (String × Position) × ℚ)) (st : SysState)
    (s : AccountState) (kv : (String × String) × WalletConfig)
    (hkv : kv ∈ st.wallets) (haddr : kv.2.address = address)
    (hchat : kv.2.chatID ≠ chatID)
    (hkeys : ∀ kv' ∈ st.wallets, kv'.1 = (kv'.2.chatID, kv'.2.address))
    (hstate : lookupKey st.accountStates address = some s)
    (hne : s.lastPositions ≠ []) :
    lookupKey (subscribeWallet chatID address name fetchResult t st).1.accountStates
        address = some s
    ∧ (subscribeWallet chatID address name fetchResult t st).1.dbAccountStates
        = st.dbAccountStates := by
  unfold subscribeWallet
  rcases hsub : lookupKey st.wallets (chatID, address) with _ | w
  · have hkey : kv.1 ≠ (chatID, address) := by
      rw [hkeys kv hkv]
      intro hcon
      exact hchat (congrArg Prod.fst hcon)
    have hmem2 : kv ∈ upsert st.wallets (chatID, address) ⟨address, name, chatID⟩ :=
      mem_upsert_of_ne hkv _ _ hkey
    have hhas : hasSubscribers address chatID
        (upsert st.wallets (chatID, address) ⟨address, name, chatID⟩) = true := by
      unfold hasSubscribers
      rw [List.any_eq_true]
      exact ⟨kv, hmem2, decide_eq_true ⟨haddr, hchat⟩⟩
    have hlen : (upsert st.wallets (chatID, address) ⟨address, name, chatID⟩).length
        = st.wallets.length + 1 := length_upsert_of_not_mem hsub _
    have hcond : ¬ ((upsert st.wallets (chatID, address)
          ⟨address, name, chatID⟩).length = 1
        ∨ hasSubscribers address chatID
            (upsert st.wallets (chatID, address) ⟨address, name, chatID⟩) = false) := by
      rintro (hc | hc)
      · rw [hlen] at hc
        have := List.length_pos_of_mem hkv
        omega
      · rw [hhas] at hc
        cases hc
    simp only [hsub, hstate, Option.isNone_some, Bool.false_eq_true, if_false]
    rcases fetchResult with _ | ⟨pos, val⟩
    · exact ⟨hstate, rfl⟩
    · simp only [if_neg hcond]
      exact ⟨hstate, trivial⟩
  · simp only [hsub]
    exact ⟨hstate, trivial⟩

/-- A two-subscriber state over one address with an established baseline. -/
def stTwo : SysState :=
  ⟨[(("chat1", "0xA"), ⟨"0xA", "n", "chat1"⟩)],
    [("0xA", ⟨[("BTC", posBTC)], 5⟩)],
    [(("chat1", "0xA"), "n")],
    [("0xA", ⟨[("BTC", posBTC)], 5⟩)]⟩

theorem second_subscribe_preserves_state_witness :
    lookupKey (subscribeWallet "chat2" "0xA" "m"
        (some ([("ETH", posBTC)], 9)) "ts" stTwo).1.accountStates "0xA"
      = some ⟨[("BTC", posBTC)], 5⟩
    ∧ (subscribeWallet "chat2" "0xA" "m"
        (some ([("ETH", posBTC)], 9)) "ts" stTwo).1.dbAccountStates
      = stTwo.dbAccountStates :=
  second_subscribe_preserves_state "chat2" "0xA" "m" "ts"
    (some ([("ETH", posBTC)], 9)) stTwo ⟨[("BTC", posBTC)], 5⟩
    (("chat1", "0xA"), ⟨"0xA", "n", "chat1"⟩)
    (List.mem_singleton.mpr rfl) rfl (by decide) (by decide) rfl (by decide)

/-! ## Claim C7 -/

theorem removeKey_sublist {α β : Type} [DecidableEq α]
    (l : List (α × β)) (a : α) : (removeKey l a).Sublist l := by
  induction l with
  | nil => simp [removeKey]
  | cons hd rest ih =>
      obtain ⟨k, v⟩ := hd
      by_cases hk : k = a
      · simp only [removeKey, if_pos hk]
        exact List.sublist_cons_self _ _
      · simp only [removeKey, if_neg hk]
        exact ih.cons₂ _

theorem nodup_keys_removeKey {α β : Type} [DecidableEq α]
    {l : List (α × β)} (h : (l.map Prod.fst).Nodup) (a : α) :
    ((removeKey l a).map Prod.fst).Nodup :=
  ((removeKey_sublist l a).map Prod.fst).nodup h

/-- C7 (amended): unsubscribing the last subscription that references an
address removes the subscription and deletes the AccountState from the
in-memory map and from both durable tables; a subsequent resubscribe starts
from the zero-valued baseline — and keeps it (so that the next poll reports
every open position as Opened) only when the resubscribe's initial fetch
fails, since a successful initial fetch immediately replaces the baseline
with the fetched snapshot (see `resubscribe_first_poll_silent`). -/
theorem unsubscribe_last_removes_state
    (chatID address name t : String) (st : SysState) (w : WalletConfig)
    (hsub : lookupKey st.wallets (chatID, address) = some w)
    (honly : ∀ kv ∈ st.wallets, kv.2.address = address → kv.1 = (chatID, address))
    (hndw : (st.wallets.map Prod.fst).Nodup)
    (hnds : (st.accountStates.map Prod.fst).Nodup)
    (hnddb : (st.dbAccountStates.map Prod.fst).Nodup) :
    lookupKey (unsubscribeWallet chatID address st).1.wallets (chatID, address) = none
    ∧ lookupKey (unsubscribeWallet chatID address st).1.accountStates address = none
    ∧ lookupKey (unsubscribeWallet chatID address st).1.dbAccountStates address = none
    ∧ lookupKey (subscribeWallet chatID address name none t
        (unsubscribeWallet chatID address st).1).1.accountStates address
      = some ⟨[], 0⟩ := by
  have hhas : hasSubscribers address ""
      (removeKey st.wallets (chatID, address)) = false := by
    rw [← Bool.not_eq_true]
    intro hc
    unfold hasSubscribers at hc
    rw [List.any_eq_true] at hc
    obtain ⟨kv, hmem, hdec⟩ := hc
    obtain ⟨haddr, -⟩ := of_decide_eq_true hdec
    have hk : kv.1 = (chatID, address) :=
      honly kv (mem_of_mem_removeKey hmem) haddr
    obtain ⟨k, v⟩ := kv
    cases hk
    have h1 := lookupKey_eq_some_of_mem
      (nodup_keys_removeKey hndw (chatID, address)) hmem
    rw [lookupKey_removeKey_self hndw] at h1
    cases h1
  have hunsub : (unsubscribeWallet chatID address st).1
      = ⟨removeKey st.wallets (chatID, address),
          removeKey st.accountStates address,
          removeKey st.dbSubscriptions (chatID, address),
          removeKey st.dbAccountStates address⟩ := by
    unfold unsubscribeWallet
    simp only [hsub, hhas, Bool.false_eq_true, if_false]
  rw [hunsub]
  refine ⟨lookupKey_removeKey_self hndw _,
    lookupKey_removeKey_self hnds _,
    lookupKey_removeKey_self hnddb _, ?_⟩
  unfold subscribeWallet
  simp only [lookupKey_removeKey_self hndw, lookupKey_removeKey_self hnds,
    Option.isNone_none, if_pos rfl]
  exact lookupKey_upsert_self _ _ _

theorem unsubscribe_last_removes_state_witness :
    lookupKey (unsubscribeWallet "chat1" "0xA" stTwo).1.wallets ("chat1", "0xA") = none
    ∧ lookupKey (unsubscribeWallet "chat1" "0xA" stTwo).1.accountStates "0xA" = none
    ∧ lookupKey (unsubscribeWallet "chat1" "0xA" stTwo).1.dbAccountStates "0xA" = none
    ∧ lookupKey (subscribeWallet "chat1" "0xA" "n" none "ts"
          (unsubscribeWallet "chat1" "0xA" stTwo).1).1.accountStates "0xA"
      = some ⟨[], 0⟩ :=
  unsubscribe_last_removes_state "chat1" "0xA" "n" "ts" stTwo
    ⟨"0xA", "n", "chat1"⟩ rfl (by decide) (by decide) (by decide) (by decide)

/-- C7 counterexample: the claim's final clause fails when the resubscribe's
initial fetch succeeds.  Concretely: `stTwo` has one subscriber of `0xA`
with a stored position; after unsubscribing (which deletes the state) and
resubscribing with a successful initial fetch of the same open position,
the first poll cycle sends no message at all — in particular it does not
report the open position as Opened. -/
theorem resubscribe_first_poll_silent :
    (monitorAllWallets fetchW (fun _ _ => true) "ts"
        (subscribeWallet "chat1" "0xA" "n" (some ([("BTC", posBTC)], 5)) "ts"
          (unsubscribeWallet "chat1" "0xA" stTwo).1).1).2.1 = []
    ∧ ([("BTC", posBTC)] : List (String × Position)) ≠ [] := by
  constructor
  · with_unfolding_all decide
  · decide

/-! ## Claim C9 -/

/-- Replace every numeric-text field of a position by the literal text of
its parse-or-zero value.  A position with unparseable fields and the same
position with those fields literally `"0"` are indistinguishable to the
program exactly when every point of use treats a parse failure as zero. -/
def defaulted (p : Position) : Position :=
  { p with
    szi := some (parseFloatOrZero p.szi)
    entryPx := some (parseFloatOrZero p.entryPx)
    positionValue := some (parseFloatOrZero p.positionValue)
    unrealizedPnl := some (parseFloatOrZero p.unrealizedPnl)
    returnOnEquity := some (parseFloatOrZero p.returnOnEquity)
    liquidationPx := some (parseFloatOrZero p.liquidationPx)
    marginUsed := some (parseFloatOrZero p.marginUsed)
    cumFundingAllTime := some (parseFloatOrZero p.cumFundingAllTime)
    cumFundingSinceOpen := some (parseFloatOrZero p.cumFundingSinceOpen) }

def defaultedList (l : List (String × Position)) : List (String × Position) :=
  l.map fun cp => (cp.1, defaulted cp.2)

def defaultedEvent : Multi.Event → Multi.Event
  | .opened coin pos => .opened coin (defaulted pos)
  | .resized coin ls cs pct inc => .resized coin ls cs pct inc
  | .closed coin => .closed coin

theorem addPositionDetails_defaulted (m : String) (p : Position) :
    Multi.addPositionDetails m (defaulted p) = Multi.addPositionDetails m p := rfl

theorem renderInitialPosition_defaulted (p : Position) :
    Multi.renderInitialPosition (defaulted p) = Multi.renderInitialPosition p := rfl

theorem lookupKey_defaultedList (l : List (String × Position)) (a : String) :
    lookupKey (defaultedList l) a = (lookupKey l a).map defaulted := by
  induction l with
  | nil => rfl
  | cons hd rest ih =>
      obtain ⟨k, p⟩ := hd
      by_cases hk : k = a <;> simp [defaultedList, lookupKey, hk, ih] <;>
        simp [defaultedList] at ih <;> exact ih

theorem parseFloatOrZero_defaulted_szi (p : Position) :
    parseFloatOrZero (defaulted p).szi = parseFloatOrZero p.szi := rfl

theorem coinStep_defaulted (s : AccountState) (cp : String × Position) :
    Multi.coinStep ⟨defaultedList s.lastPositions, s.lastAccountValue⟩
        (cp.1, defaulted cp.2)
      = (Multi.coinStep s cp).map defaultedEvent := by
  unfold Multi.coinStep
  rw [lookupKey_defaultedList]
  rcases lookupKey s.lastPositions cp.1 with _ | last
  · rfl
  · simp only [Option.map_some', parseFloatOrZero_defaulted_szi]
    by_cases hge : Multi.sziPct (parseFloatOrZero last.szi) (parseFloatOrZero cp.2.szi) ≥ 1
    · rw [if_pos hge]
      rfl
    · rw [if_neg hge]
      rfl

theorem closedStep_defaulted (c : List (String × Position)) (lp : String × Position) :
    Multi.closedStep (defaultedList c) (lp.1, defaulted lp.2)
      = (Multi.closedStep c lp).map defaultedEvent := by
  unfold Multi.closedStep
  simp only [lookupKey_defaultedList]
  rcases lookupKey c lp.1 with _ | cur
  · rfl
  · rfl

theorem detectEvents_defaulted (c : List (String × Position)) (s : AccountState) :
    Multi.detectEvents (defaultedList c)
        ⟨defaultedList s.lastPositions, s.lastAccountValue⟩
      = (Multi.detectEvents c s).map defaultedEvent := by
  unfold Multi.detectEvents
  rw [List.map_append]
  congr 1
  · show (List.map _ c).filterMap _ = _
    rw [List.filterMap_map]
    have hfun : (Multi.coinStep ⟨defaultedList s.lastPositions, s.lastAccountValue⟩
          ∘ fun cp => (cp.1, defaulted cp.2))
        = fun cp => (Multi.coinStep s cp).map defaultedEvent := by
      funext cp
      exact coinStep_defaulted s cp
    rw [hfun, ← List.map_filterMap]
  · show (List.map _ s.lastPositions).filterMap _ = _
    rw [List.filterMap_map]
    have hfun : (Multi.closedStep (defaultedList c) ∘ fun cp => (cp.1, defaulted cp.2))
        = fun lp => (Multi.closedStep c lp).map defaultedEvent := by
      funext lp
      exact closedStep_defaulted c lp
    rw [hfun, ← List.map_filterMap]

theorem renderEvent_defaulted (e : Multi.Event) :
    Multi.renderEvent (defaultedEvent e) = Multi.renderEvent e := by
  cases e with
  | opened coin pos =>
      show _ ++ Multi.addPositionDetails "" (defaulted pos) = _
      rw [addPositionDetails_defaulted]
      rfl
  | resized coin ls cs pct inc => rfl
  | closed coin => rfl

/-- C9: a numeric text field that fails to parse is treated as the value
zero at its point of use and never surfaces as an error: change detection,
the per-position renderers, the initial-status render and the decoding of
the fetched account value all produce identical output when every
unparseable field is replaced by a literal zero — and all of them are
total functions into `String` (no error channel exists). -/
theorem parse_failure_as_zero (w : WalletConfig) (c : List (String × Position))
    (v : ℚ) (s : AccountState) (t m : String) (p : Position)
    (ps : List (String × Position)) (aps : List Position) :
    Multi.detectPositionChanges w (defaultedList c) v
        ⟨defaultedList s.lastPositions, s.lastAccountValue⟩ t
      = Multi.detectPositionChanges w c v s t
    ∧ Multi.addPositionDetails m (defaulted p) = Multi.addPositionDetails m p
    ∧ Multi.generateInitialStatusMessage w (defaultedList ps) v t
      = Multi.generateInitialStatusMessage w ps v t
    ∧ Multi.fetchDecode ⟨⟨none⟩, aps⟩ = Multi.fetchDecode ⟨⟨some 0⟩, aps⟩ := by
  refine ⟨?_, addPositionDetails_defaulted m p, ?_, rfl⟩
  · unfold Multi.detectPositionChanges
    rw [detectEvents_defaulted]
    have hje : ((Multi.detectEvents c s).map defaultedEvent).isEmpty
        = (Multi.detectEvents c s).isEmpty := by
      rcases Multi.detectEvents c s with _ | _ <;> rfl
    have hjr : ((Multi.detectEvents c s).map defaultedEvent).map Multi.renderEvent
        = (Multi.detectEvents c s).map Multi.renderEvent := by
      rw [List.map_map]
      congr 1
      funext e'
      exact renderEvent_defaulted e'
    simp only [hje, hjr]
  · unfold Multi.generateInitialStatusMessage
    have hempty : (defaultedList ps).isEmpty = ps.isEmpty := by
      rcases ps with _ | ⟨q, qs⟩ <;> rfl
    have hj : String.join ((defaultedList ps).map fun cp =>
          Multi.renderInitialPosition cp.2)
        = String.join (ps.map fun cp => Multi.renderInitialPosition cp.2) := by
      unfold defaultedList
      rw [List.map_map]
      rfl
    rw [hempty, hj]

end PositionMonitor
